import Mathlib

/-!
Verification development for the IPSW auto-symbolication server's
Symbol Cache & Address Resolution Engine.

The definitions below are shallow embeddings of the Python sources:
* `src/custom_symbol_server.py` — `SymbolManager.symbolicate_addresses`,
  `DatabaseManager.cache_symbols` / `get_cached_symbols`,
  `auto_ensure_symbols_available`;
* `src/s3_optimized_manager.py` — `S3OptimizedManager.cleanup_cache`,
  `has_enough_space`;
* `src/internal_s3_manager.py` — `_device_matches`, `list_available_ipsw`.

Machine integers are modelled as `Nat` (addresses fit in 64 bits and no
arithmetic in the modelled code overflows or goes below zero in a way the
logic depends on; Python integers are unbounded anyway).  Timestamps are
seconds since an arbitrary epoch (`datetime.now()` / `CURRENT_TIMESTAMP`
become an explicit `now : Nat` parameter; `timedelta(hours=h)` becomes
`h * 3600`).  Byte sizes are exact `Nat` byte counts; the Python code
compares sizes after dividing by fixed positive constants (GiB), which is
order-preserving, so comparisons are stated directly on byte counts.
-/

namespace IpswSym

/-! ## Address resolution (`SymbolManager.symbolicate_addresses`)

The Python function receives `symbols : Dict[str, str]`, converts the keys
to integers (skipping unparsable ones) into `symbols_by_int`, and then
resolves each requested address.  The embedding starts from the
integer-keyed map: a `SymbolMap` is the association list of
(address, symbol-name) pairs of `symbols_by_int`; a Python dict has unique
keys and preserves insertion order. -/

/-- The integer-keyed symbol table `symbols_by_int` of
`symbolicate_addresses`: pairs of address and symbol name. -/
abbrev SymbolMap := List (Nat × String)

/-- Hex rendering of an address, embedding Python `f"0x{addr:x}"`
(lowercase hex digits, no leading zeros, `"0x0"` for zero). -/
def hexStr (n : Nat) : String :=
  "0x" ++ String.mk (Nat.toDigits 16 n)

/-- Dictionary lookup `symbols_by_int[addr]` / `addr in symbols_by_int`. -/
def lookupSym (symbols : SymbolMap) (addr : Nat) : Option String :=
  (symbols.find? (fun p => p.1 == addr)).map Prod.snd

/-- Embedding of `sorted_symbol_addrs = sorted(symbols_by_int.keys())`. -/
def sortedSymbolAddrs (symbols : SymbolMap) : List Nat :=
  List.insertionSort (· ≤ ·) (symbols.map Prod.fst)

/-- Embedding of `bisect.bisect_right(sorted_symbol_addrs, addr) - 1` followed by the
`idx >= 0` check and the read `sorted_symbol_addrs[idx]`: on the sorted
address list this is exactly the rightmost element that is `≤ addr`
(`none` when every element exceeds `addr`). -/
def rightmostLE (sorted : List Nat) (addr : Nat) : Option Nat :=
  (sorted.takeWhile (fun x => decide (x ≤ addr))).getLast?

/-- The hardcoded offset bound `0x10000` (64 KiB) of
`symbolicate_addresses` ("Only use if offset is reasonable"). -/
def tolerance : Nat := 0x10000

/-- The fallback output `f"<unknown>+0x{addr:x}"` for an unresolved
address: a structured marker carrying the raw address. -/
def unknownSym (addr : Nat) : String :=
  "<unknown>+" ++ hexStr addr

/-- Resolution of one address: exact dictionary hit first, otherwise the
nearest preceding symbol if its offset is strictly below `tolerance`,
otherwise the `unknownSym` marker.  Mirrors the body of the `for addr in
addresses` loop of `symbolicate_addresses`. -/
def symbolicateOne (symbols : SymbolMap) (addr : Nat) : String :=
  match lookupSym symbols addr with
  | some sym => sym
  | none =>
    match rightmostLE (sortedSymbolAddrs symbols) addr with
    | some nearest =>
      let offset := addr - nearest
      if offset < tolerance then
        match lookupSym symbols nearest with
        | some sym => sym ++ "+" ++ hexStr offset
        | none => unknownSym addr
      else unknownSym addr
    | none => unknownSym addr

/-- Embedding of `symbolicate_addresses(addresses, symbols)`: the result dictionary
`symbolicated`, keyed by the hex rendering of each input address.  The
dict is modelled as the association list in input order (duplicate input
addresses produce the same key-value pair, which a dict collapses). -/
def symbolicate_addresses (addresses : List Nat) (symbols : SymbolMap) :
    List (String × String) :=
  addresses.map (fun addr => (hexStr addr, symbolicateOne symbols addr))

/-! ## TTL symbol cache (`DatabaseManager.cache_symbols` / `get_cached_symbols`)

The Postgres table `symbol_cache(cache_key, symbol_data, expires_at)` is
modelled as an association list keyed by `cache_key`.  `symbol_data` is
stored and returned as the same value (the Python code round-trips it
through `json.dumps` / `json.loads`, which is the identity on the
string-to-string dictionaries it is given). -/

/-- The `symbol_data` payload: a JSON object mapping address strings to
symbol names. -/
abbrev SymbolData := List (String × String)

/-- One row of the `symbol_cache` table. -/
structure CacheRow where
  symbolData : SymbolData
  expiresAt : Nat
deriving DecidableEq

/-- The `symbol_cache` table: rows keyed by `cache_key` (unique by the
table's conflict target). -/
abbrev CacheDB := List (String × CacheRow)

/-- The upsert `INSERT ... ON CONFLICT (cache_key) DO UPDATE`: replace the row for
`key` if present, otherwise append a new row. -/
def upsertRow (db : CacheDB) (key : String) (row : CacheRow) : CacheDB :=
  if db.any (fun p => p.1 == key) then
    db.map (fun p => if p.1 == key then (key, row) else p)
  else db ++ [(key, row)]

/-- Embedding of `cache_symbols(cache_key, symbol_data, expires_hours)`:
`expires_at = datetime.now() + timedelta(hours=expires_hours)`. -/
def cacheSymbols (db : CacheDB) (key : String) (data : SymbolData)
    (now expiresHours : Nat) : CacheDB :=
  upsertRow db key ⟨data, now + expiresHours * 3600⟩

/-- Embedding of `get_cached_symbols(cache_key)`: the row's payload when
`expires_at > CURRENT_TIMESTAMP`, else `None`. -/
def getCachedSymbols (db : CacheDB) (key : String) (now : Nat) :
    Option SymbolData :=
  match db.find? (fun p => p.1 == key) with
  | some p => if now < p.2.expiresAt then some p.2.symbolData else none
  | none => none

/-! ## Eviction manager (`S3OptimizedManager.cleanup_cache` / `has_enough_space`)

A cached artifact is a cache directory together with its `access_log`
entry.  Sizes are in bytes and ages in seconds; the Python code divides
both by fixed positive constants (GiB, hours) before comparing, which
preserves every comparison made. -/

/-- One cached artifact as assembled by `cleanup_cache`: cache key,
on-disk size, `last_access` timestamp and `access_count` from the access
log. -/
structure CacheItem where
  key : String
  size : Nat
  lastAccess : Nat
  accessCount : Nat
deriving DecidableEq

/-- Configuration: `CACHE_SIZE_GB` (as bytes) and `CLEANUP_AFTER_HOURS`
(as seconds). -/
structure CleanupConfig where
  cacheSize : Nat
  cleanupAfter : Nat
deriving DecidableEq

/-- The Python sort key `(access_count, last_access)` compared
lexicographically (ascending). -/
def itemOrder (a b : CacheItem) : Prop :=
  a.accessCount < b.accessCount ∨
    (a.accessCount = b.accessCount ∧ a.lastAccess ≤ b.lastAccess)

instance : DecidableRel itemOrder := fun a b =>
  inferInstanceAs (Decidable (a.accessCount < b.accessCount ∨
    (a.accessCount = b.accessCount ∧ a.lastAccess ≤ b.lastAccess)))

instance : IsTotal CacheItem itemOrder :=
  ⟨fun a b => by unfold itemOrder; omega⟩

instance : IsTrans CacheItem itemOrder :=
  ⟨fun a b c => by unfold itemOrder; omega⟩

/-- Embedding of `cached_items.sort(key=lambda x: (x["access_count"], x["last_access"]))`. -/
def sortCachedItems (items : List CacheItem) : List CacheItem :=
  List.insertionSort itemOrder items

/-- The eviction loop of `cleanup_cache` over the sorted candidate list.
Arguments: `freed` bytes so far, then the remaining items.  Returns
(kept items, removed items).  An item is removed when its age exceeds
`cleanupAfter` or its `access_count` equals 1; the loop stops (keeping
everything left) once `required > 0` and `freed ≥ required`. -/
def evictLoop (cfg : CleanupConfig) (now required : Nat) :
    Nat → List CacheItem → List CacheItem × List CacheItem
  | _, [] => ([], [])
  | freed, item :: rest =>
    if 0 < required ∧ required ≤ freed then (item :: rest, [])
    else if cfg.cleanupAfter < now - item.lastAccess ∨ item.accessCount = 1 then
      ((evictLoop cfg now required (freed + item.size) rest).1,
        item :: (evictLoop cfg now required (freed + item.size) rest).2)
    else
      (item :: (evictLoop cfg now required freed rest).1,
        (evictLoop cfg now required freed rest).2)

/-- Embedding of `cleanup_cache(required_gb)`: sort the candidates by
`(access_count, last_access)` ascending, then run the eviction loop. -/
def cleanupCache (cfg : CleanupConfig) (now : Nat) (items : List CacheItem)
    (required : Nat) : List CacheItem × List CacheItem :=
  evictLoop cfg now required 0 (sortCachedItems items)

/-- Total on-disk usage of the cached artifacts, in bytes. -/
def totalSize (items : List CacheItem) : Nat :=
  (items.map CacheItem.size).sum

/-- Embedding of `has_enough_space(required_bytes)`: if projected usage exceeds the
budget, run `cleanup_cache` and re-check; returns the verdict and the
surviving items. -/
def hasEnoughSpace (cfg : CleanupConfig) (now : Nat) (items : List CacheItem)
    (required : Nat) : Bool × List CacheItem :=
  if cfg.cacheSize < totalSize items + required then
    let kept := (cleanupCache cfg now items required).1
    (decide (totalSize kept + required ≤ cfg.cacheSize), kept)
  else (true, items)

/-! ## Removal event order inside `cleanup_cache` (temporal model)

For each removed item the loop body runs `shutil.rmtree(item["path"])`
and then `del self.access_log[item["cache_key"]]`, with no lock held
(`processing_lock` is never taken in `cleanup_cache`).  The destructive
events of one pass, in program order, are therefore
artifact-deletion-then-metadata-deletion per removed item. -/

/-- A destructive event of the eviction loop. -/
inductive RemovalEv where
  | delArtifact (key : String)
  | delMeta (key : String)
deriving DecidableEq

/-- The event sequence of one eviction pass over its removed items:
`shutil.rmtree` (artifact) first, metadata deletion second, per item. -/
def removalTrace (removed : List CacheItem) : List RemovalEv :=
  removed.flatMap (fun i => [RemovalEv.delArtifact i.key, RemovalEv.delMeta i.key])

/-- Observable shared state: which artifact directories exist on disk and
which keys the access-log metadata still holds. -/
structure DiskState where
  artifacts : List String
  meta : List String
deriving DecidableEq

/-- Effect of one destructive event on the observable state. -/
def applyRemoval (s : DiskState) (e : RemovalEv) : DiskState :=
  match e with
  | RemovalEv.delArtifact k =>
      { s with artifacts := s.artifacts.filter (fun x => decide (x ≠ k)) }
  | RemovalEv.delMeta k =>
      { s with meta := s.meta.filter (fun x => decide (x ≠ k)) }

/-- State after a sequence of destructive events; every prefix of the
trace yields a state a concurrent reader may observe, since no lock is
held. -/
def stateAfter (s : DiskState) (evs : List RemovalEv) : DiskState :=
  evs.foldl applyRemoval s

/-! ## Extraction coalescing (`auto_ensure_symbols_available`, concurrency)

`auto_ensure_symbols_available` acquires no lock: its observable shape per
call, for one fixed request key, is (1) read the cache, returning at once
on a hit; (2) on a miss, run the download/extraction pipeline; (3) write
the cache.  Each of those is modelled as one atomic step of an
interleaving semantics over the shared cache cell for that key; `runs`
counts pipeline executions. -/

/-- Program counter of one in-flight `auto_ensure_symbols_available`
call for the key. -/
inductive CallPhase where
  /-- about to perform the initial cache reads (lines 518–547) -/
  | ready
  /-- cache miss observed; about to run the download/extraction pipeline -/
  | extracting
  /-- pipeline finished; about to write the cache keys -/
  | writing
  /-- returned -/
  | done
deriving DecidableEq

/-- Shared state for one request key: its cache record, the phases of the
concurrent calls, and how many pipeline executions have happened. -/
structure CoalesceSt where
  cache : Option SymbolData
  threads : List CallPhase
  runs : Nat
deriving DecidableEq

/-- One atomic step of thread `i` (no-op when `i` is out of range or the
thread has returned).  A `ready` thread observes the cache: hit means
return, miss means proceed to the pipeline — there is no lock and no
re-check between the miss and the pipeline. -/
def stepSys (result : SymbolData) (s : CoalesceSt) (i : Nat) : CoalesceSt :=
  match s.threads[i]? with
  | none => s
  | some ph =>
    match ph with
    | CallPhase.ready =>
        if s.cache.isSome then { s with threads := s.threads.set i CallPhase.done }
        else { s with threads := s.threads.set i CallPhase.extracting }
    | CallPhase.extracting =>
        { s with threads := s.threads.set i CallPhase.writing, runs := s.runs + 1 }
    | CallPhase.writing =>
        { s with cache := some result, threads := s.threads.set i CallPhase.done }
    | CallPhase.done => s

/-- Run a schedule (a list of thread indices) from a state. -/
def runSched (result : SymbolData) (s : CoalesceSt) : List Nat → CoalesceSt
  | [] => s
  | i :: rest => runSched result (stepSys result s i) rest

/-- A phase from which the pipeline step is still reachable. -/
def isActivePhase : CallPhase → Bool
  | CallPhase.ready => true
  | CallPhase.extracting => true
  | CallPhase.writing => false
  | CallPhase.done => false

/-- Threads that may still reach the pipeline step. -/
def activeCount (s : CoalesceSt) : Nat :=
  s.threads.countP isActivePhase

/-! ## Cache-key lookup order (`auto_ensure_symbols_available`, lines 518–547)

The function first reads key `device_model_ios_version`, then builds
`build_patterns` and reads one derived key per pattern, returning on the
first hit.  `str.startswith` is embedded on the character lists. -/

/-- Python `pattern.startswith(device_model)`. -/
def strStartsWith (s p : String) : Bool :=
  List.isPrefixOf p.data s.data

/-- The hardcoded fallback builds `['22F76', '22F74', '22F75']`
("Common iOS 18.5 builds"). -/
def fallbackBuilds : List String := ["22F76", "22F74", "22F75"]

/-- The list `build_patterns` as assembled by the code: with a build number,
`[build, dm_v_build, dm_build_unknown]`; without one, the six keys derived
from the fallback builds. -/
def buildPatterns (dm v : String) : Option String → List String
  | some b => [b, dm ++ "_" ++ v ++ "_" ++ b, dm ++ "_" ++ b ++ "_unknown"]
  | none =>
      fallbackBuilds.map (fun b => dm ++ "_" ++ v ++ "_" ++ b) ++
        fallbackBuilds.map (fun b => dm ++ "_" ++ b ++ "_unknown")

/-- The key actually read for one pattern in the `for pattern in
build_patterns` loop. -/
def patternKey (dm v : String) (b? : Option String) (pat : String) : String :=
  match b? with
  | some b =>
    if pat = b then dm ++ "_" ++ v ++ "_" ++ b
    else if strStartsWith pat dm then pat
    else dm ++ "_" ++ v ++ "_" ++ pat
  | none =>
    if strStartsWith pat dm then pat else dm ++ "_" ++ v ++ "_" ++ pat

/-- The full sequence of cache keys read, in order: first
`device_model_ios_version`, then one key per build pattern. -/
def triedCacheKeys (dm v : String) (b? : Option String) : List String :=
  (dm ++ "_" ++ v) :: (buildPatterns dm v b?).map (patternKey dm v b?)

/-- The cache-lookup phase of `auto_ensure_symbols_available`: the first
tried key holding a live record, together with its payload. -/
def cacheLookupPhase (db : CacheDB) (now : Nat) (dm v : String)
    (b? : Option String) : Option (String × SymbolData) :=
  (triedCacheKeys dm v b?).findSome?
    (fun k => (getCachedSymbols db k now).map (fun d => (k, d)))

/-! ## The extraction pipeline (`auto_ensure_symbols_available`, lines 549–694)

The externally-determined outcomes (S3 availability, the bucket listing,
download success, `ipsw info` output, kernelcache extraction, tool
symbolication, the loaded symbol table) are supplied as an explicit
environment; the function itself is the branch structure of the code. -/

/-- One entry of `list_available_ipsw`'s result as consumed by
`auto_ensure_symbols_available` (`ipsw.get('device')`,
`ipsw.get('version')`, `ipsw.get('build')`). -/
structure BucketFile where
  device : String
  version : String
  build : Option String
  key : String
  size : Nat
deriving DecidableEq

/-- Result of `extract_ipsw_info`: the optional `Version` and
`BuildVersion` fields parsed from `ipsw info` output. -/
structure IpswInfo where
  iosVersion : Option String
  buildVersion : Option String
deriving DecidableEq

/-- Environment of one `auto_ensure_symbols_available` run: outcomes of
every external step. -/
structure ScanEnv where
  s3Available : Bool
  ipsws : List BucketFile
  downloadOk : Bool
  ipswInfo : Option IpswInfo
  kernelcacheOk : Bool
  symbolicateOk : Bool
  loadedSymbols : SymbolData
deriving DecidableEq

/-- The IPSW-matching loops: first entry matching device and version and
(when a build was requested) the build; then, when a build was requested
and nothing matched, the first entry matching device and version alone. -/
def findMatchingIpsw (ipsws : List BucketFile) (dm v : String)
    (b? : Option String) : Option BucketFile :=
  match ipsws.find? (fun i =>
      i.device == dm && i.version == v &&
        (match b? with
         | some b => i.build == some b
         | none => true)) with
  | some i => some i
  | none =>
    match b? with
    | some _ => ipsws.find? (fun i => i.device == dm && i.version == v)
    | none => none

/-- Embedding of `auto_ensure_symbols_available(device_model, ios_version,
build_number)` acting on the symbol cache: returns the success flag and
the cache contents after the call.  Every `return False` path of the
source leaves the cache untouched; the success path after extraction
writes the table under all derived keys (24-hour TTL).  The
`save_symbols_metadata` call touches the separate `symbols` table, not
the `symbol_cache` table modelled here, and the file cleanups touch only
the downloads/cache directories. -/
def autoEnsure (env : ScanEnv) (db : CacheDB) (now : Nat) (dm v : String)
    (b? : Option String) : Bool × CacheDB :=
  match cacheLookupPhase db now dm v b? with
  | some _ => (true, db)
  | none =>
    if !env.s3Available then (false, db)
    else
      match findMatchingIpsw env.ipsws dm v b? with
      | none => (false, db)
      | some _ =>
        if !env.downloadOk then (false, db)
        else
          match env.ipswInfo with
          | none => (false, db)
          | some info =>
            match getCachedSymbols db
                (dm ++ "_" ++ info.buildVersion.getD "unknown" ++ "_unknown")
                now with
            | some _ => (true, db)
            | none =>
              if !env.kernelcacheOk then (false, db)
              else if !env.symbolicateOk then (false, db)
              else if env.loadedSymbols.isEmpty then (false, db)
              else
                (true,
                  ([dm ++ "_" ++ v,
                    dm ++ "_" ++ v ++ "_" ++ info.buildVersion.getD "unknown",
                    dm ++ "_" ++ info.buildVersion.getD "unknown" ++ "_unknown"] ++
                    (match b? with
                     | some b =>
                       if b ≠ info.buildVersion.getD "unknown" then
                         [dm ++ "_" ++ v ++ "_" ++ b,
                           dm ++ "_" ++ b ++ "_unknown"]
                       else []
                     | none => [])).foldl
                    (fun d k => cacheSymbols d k env.loadedSymbols now 24) db)

/-! ## Device matching (`InternalS3Manager._device_matches`,
`list_available_ipsw`) -/

/-- The normalisation of `_device_matches`:
`s.lower().replace('_','').replace('-','').replace(' ','').replace(',','')`,
as a character list. -/
def normDevice (s : String) : List Char :=
  (s.data.map Char.toLower).filter
    (fun c => decide (c ≠ '_') && decide (c ≠ '-') && decide (c ≠ ' ') && decide (c ≠ ','))

/-- Python substring test `pat in l`. -/
def listContains (l pat : List Char) : Bool :=
  match l with
  | [] => pat.isEmpty
  | _ :: t => List.isPrefixOf pat l || listContains t pat

/-- Embedding of `re.findall(r'\d+', s)`: the maximal runs of consecutive decimal
digits of `s`, in order.  `cur` accumulates the current run reversed. -/
def digitRunsAux : List Char → List Char → List (List Char)
  | [], cur => if cur.isEmpty then [] else [cur.reverse]
  | c :: t, cur =>
    if c.isDigit then digitRunsAux t (c :: cur)
    else if cur.isEmpty then digitRunsAux t []
    else cur.reverse :: digitRunsAux t []

/-- The digit runs of a string (applied to the raw, un-normalised device
string, as in the source). -/
def digitRuns (s : String) : List (List Char) :=
  digitRunsAux s.data []

/-- Embedding of `_device_matches(s3_device, target_device)`: exact normalised match;
else, when both normalised names contain `iphone` and both raw strings
contain digits, equality of the digit runs; else `True` when both
normalised names contain `ipad`; else `False`. -/
def deviceMatches (s3Device targetDevice : String) : Bool :=
  if normDevice s3Device = normDevice targetDevice then true
  else if listContains (normDevice s3Device) ("iphone".data) &&
      listContains (normDevice targetDevice) ("iphone".data) &&
      !(digitRuns s3Device).isEmpty && !(digitRuns targetDevice).isEmpty then
    digitRuns s3Device == digitRuns targetDevice
  else if listContains (normDevice s3Device) ("ipad".data) &&
      listContains (normDevice targetDevice) ("ipad".data) then
    true
  else false

/-- The Python sort key `(x['device'], x['version'])` of
`list_available_ipsw`, compared lexicographically. -/
def bucketOrder (a b : BucketFile) : Prop :=
  a.device < b.device ∨ (a.device = b.device ∧ a.version ≤ b.version)

instance : DecidableRel bucketOrder := fun a b =>
  inferInstanceAs (Decidable (a.device < b.device ∨
    (a.device = b.device ∧ a.version ≤ b.version)))

/-- Embedding of `list_available_ipsw(device_filter)`: keep every file when the filter
is absent, else those whose `device` matches the filter under
`_device_matches`; return them sorted by `(device, version)`. -/
def listAvailableIpsw (bucket : List BucketFile)
    (deviceFilter : Option String) : List BucketFile :=
  List.insertionSort bucketOrder
    (bucket.filter (fun f =>
      match deviceFilter with
      | none => true
      | some flt => deviceMatches f.device flt))

/-! ## Helper lemmas: sorted nearest-symbol search -/

/-- The address list fed to the binary search is sorted. -/
lemma sorted_sortedSymbolAddrs (symbols : SymbolMap) :
    List.Sorted (· ≤ ·) (sortedSymbolAddrs symbols) :=
  List.sorted_insertionSort _ _

lemma mem_sortedSymbolAddrs {symbols : SymbolMap} {m : Nat} :
    m ∈ sortedSymbolAddrs symbols ↔ m ∈ symbols.map Prod.fst :=
  List.mem_insertionSort _

/-- Every table address has a name in the table. -/
lemma exists_lookupSym_of_mem_fst {symbols : SymbolMap} {m : Nat}
    (hm : m ∈ symbols.map Prod.fst) : ∃ nm, lookupSym symbols m = some nm := by
  obtain ⟨p, hp, hfst⟩ := List.mem_map.mp hm
  have hsome : (symbols.find? (fun q => q.1 == m)).isSome :=
    List.find?_isSome.mpr ⟨p, hp, by simp [hfst]⟩
  obtain ⟨r, hr⟩ := Option.isSome_iff_exists.mp hsome
  exact ⟨r.2, by simp [lookupSym, hr]⟩

/-- On a sorted list, `takeWhile (· ≤ a)` keeps every element `≤ a`. -/
lemma mem_takeWhile_of_sorted :
    ∀ {l : List Nat}, List.Sorted (· ≤ ·) l → ∀ {k a : Nat}, k ∈ l → k ≤ a →
      k ∈ l.takeWhile (fun x => decide (x ≤ a))
  | [], _, _, _, hk, _ => absurd hk (List.not_mem_nil _)
  | x :: xs, hs, k, a, hk, hka => by
    rw [List.sorted_cons] at hs
    rcases List.mem_cons.mp hk with rfl | hk'
    · rw [List.takeWhile_cons_of_pos (by simpa using hka)]
      exact List.mem_cons_self _ _
    · have hxk : x ≤ k := hs.1 k hk'
      rw [List.takeWhile_cons_of_pos (by simp; omega)]
      exact List.mem_cons_of_mem _ (mem_takeWhile_of_sorted hs.2 hk' hka)

/-- On a sorted list the last element bounds every member. -/
lemma le_getLast?_of_sorted :
    ∀ {l : List Nat}, List.Sorted (· ≤ ·) l → ∀ {k : Nat}, k ∈ l →
      ∀ {m : Nat}, l.getLast? = some m → k ≤ m
  | [], _, _, hk, _, _ => absurd hk (List.not_mem_nil _)
  | [x], _, k, hk, m, hm => by
    simp only [List.mem_singleton] at hk
    simp only [List.getLast?_singleton, Option.some.injEq] at hm
    omega
  | x :: y :: ys, hs, k, hk, m, hm => by
    rw [List.getLast?_cons_cons] at hm
    rw [List.sorted_cons] at hs
    rcases List.mem_cons.mp hk with rfl | hk'
    · exact hs.1 m (List.mem_of_getLast?_eq_some hm)
    · exact le_getLast?_of_sorted hs.2 hk' hm

/-- Characterisation of the embedded binary search on a sorted list:
a `some` answer is the rightmost element `≤ addr`; a `none` answer means
every element exceeds `addr`. -/
lemma rightmostLE_spec {l : List Nat} (hs : List.Sorted (· ≤ ·) l) (a : Nat) :
    (∀ m, rightmostLE l a = some m →
      m ∈ l ∧ m ≤ a ∧ ∀ k ∈ l, k ≤ a → k ≤ m) ∧
    (rightmostLE l a = none → ∀ k ∈ l, a < k) := by
  constructor
  · intro m hm
    have hmemTW : m ∈ l.takeWhile (fun x => decide (x ≤ a)) :=
      List.mem_of_getLast?_eq_some hm
    have hml : m ∈ l := (List.takeWhile_sublist _).subset hmemTW
    have hma : m ≤ a := by simpa using List.mem_takeWhile_imp hmemTW
    refine ⟨hml, hma, fun k hk hka => ?_⟩
    have hkTW := mem_takeWhile_of_sorted hs hk hka
    exact le_getLast?_of_sorted (hs.sublist (List.takeWhile_sublist _)) hkTW hm
  · intro hnone k hk
    by_contra hlt
    have hka : k ≤ a := by omega
    have := mem_takeWhile_of_sorted hs hk hka
    rw [rightmostLE, List.getLast?_eq_none_iff] at hnone
    rw [hnone] at this
    exact absurd this (List.not_mem_nil _)

/-! ## Helper lemmas: the TTL cache -/

lemma find?_map_replace {key : String} {row : CacheRow} :
    ∀ {db : CacheDB}, db.any (fun p => p.1 == key) = true →
      (db.map (fun p => if p.1 == key then (key, row) else p)).find?
          (fun p => p.1 == key) = some (key, row)
  | [], h => by simp at h
  | p :: t, h => by
    by_cases hp : p.1 = key
    · have hbeq : (p.1 == key) = true := by simpa using hp
      rw [List.map_cons, if_pos hbeq]
      exact List.find?_cons_of_pos _ (by simp)
    · have hbeq : (p.1 == key) = false := by simpa using hp
      have ht : t.any (fun p => p.1 == key) = true := by
        simp only [List.any_cons, Bool.or_eq_true] at h
        rcases h with h | h
        · exact absurd (by simpa using h) hp
        · exact h
      rw [List.map_cons, if_neg (by simp [hbeq])]
      rw [List.find?_cons_of_neg _ (by simp [hbeq])]
      exact find?_map_replace ht

lemma find?_append_self {key : String} {row : CacheRow} :
    ∀ {db : CacheDB}, db.any (fun p => p.1 == key) = false →
      (db ++ [(key, row)]).find? (fun p => p.1 == key) = some (key, row)
  | [], _ => by simp [List.find?]
  | p :: t, h => by
    simp only [List.any_cons, Bool.or_eq_false_iff] at h
    have hp : (p.1 == key) = false := h.1
    simpa [List.find?, hp] using find?_append_self h.2

/-- After an upsert the row for the key is the upserted row. -/
lemma find?_upsertRow (db : CacheDB) (key : String) (row : CacheRow) :
    (upsertRow db key row).find? (fun p => p.1 == key) = some (key, row) := by
  unfold upsertRow
  by_cases h : db.any (fun p => p.1 == key) = true
  · rw [if_pos h]
    exact find?_map_replace h
  · rw [if_neg h]
    exact find?_append_self (Bool.eq_false_iff.mpr h)

/-- A key absent from the table yields no row. -/
lemma find?_of_not_mem_keys {db : CacheDB} {key : String}
    (h : key ∉ db.map Prod.fst) :
    db.find? (fun p => p.1 == key) = none := by
  rw [List.find?_eq_none]
  intro x hx
  simp only [beq_iff_eq]
  intro heq
  exact h (List.mem_map.mpr ⟨x, hx, heq⟩)

/-! ## C7 — cache round-trip -/

/-- C7: `put(k, T, ttl)` then `get(k)` strictly before the expiry instant
returns the stored table; at or after the expiry instant (TTL elapsed) it
returns `None`; and `get` of a never-written key returns `None`.
(`expires_at > CURRENT_TIMESTAMP` is a strict comparison, so at the exact
expiry instant the record is already missing.) -/
theorem claim_c7_cache_roundtrip (db : CacheDB) (k : String) (T : SymbolData)
    (h now t : Nat) :
    (t < now + h * 3600 →
      getCachedSymbols (cacheSymbols db k T now h) k t = some T) ∧
    (now + h * 3600 ≤ t →
      getCachedSymbols (cacheSymbols db k T now h) k t = none) ∧
    (k ∉ db.map Prod.fst → getCachedSymbols db k t = none) := by
  have hfind := find?_upsertRow db k (⟨T, now + h * 3600⟩ : CacheRow)
  refine ⟨fun hlt => ?_, fun hle => ?_, fun hnm => ?_⟩
  · rw [getCachedSymbols, cacheSymbols, hfind]
    simp [hlt]
  · rw [getCachedSymbols, cacheSymbols, hfind]
    simp
    omega
  · rw [getCachedSymbols, find?_of_not_mem_keys hnm]

theorem claim_c7_cache_roundtrip_witness :
    getCachedSymbols (cacheSymbols [] "a" [("0x1", "f")] 0 24) "a" 86399 =
      some [("0x1", "f")] ∧
    getCachedSymbols (cacheSymbols [] "a" [("0x1", "f")] 0 24) "a" 86400 = none ∧
    getCachedSymbols [] "a" 0 = none :=
  ⟨(claim_c7_cache_roundtrip [] "a" [("0x1", "f")] 24 0 86399).1 (by decide),
   (claim_c7_cache_roundtrip [] "a" [("0x1", "f")] 24 0 86400).2.1 (by decide),
   (claim_c7_cache_roundtrip [] "a" [("0x1", "f")] 24 0 0).2.2 (by simp)⟩

/-! ## C3 — nearest-symbol resolution for addresses not in the table -/

/-- C3 counterexample: at the exact boundary `a - E.address = tolerance`
the claim says the symbol is returned, but the code's check is strict
(`offset < 0x10000`), so the Unknown marker is returned instead. -/
theorem claim_c3_counterexample :
    symbolicateOne [((0 : Nat), "f")] tolerance = unknownSym tolerance ∧
    symbolicateOne [((0 : Nat), "f")] tolerance ≠ "f" ++ "+" ++ hexStr tolerance := by
  constructor
  · rfl
  · decide

/-- C3 (amended): for an address `a` with no exact entry, the search finds
the rightmost entry `m ≤ a` (or none, when all entries exceed `a`); the
symbol is returned when `a - m` is STRICTLY below the tolerance, and the
Unknown marker carrying the raw address when `a - m ≥ tolerance` or no
entry precedes `a`. -/
theorem claim_c3_nearest_resolution (symbols : SymbolMap) (a : Nat)
    (hmiss : lookupSym symbols a = none) :
    (∃ m nm, rightmostLE (sortedSymbolAddrs symbols) a = some m ∧
      m ∈ symbols.map Prod.fst ∧ m ≤ a ∧
      (∀ k ∈ symbols.map Prod.fst, k ≤ a → k ≤ m) ∧
      lookupSym symbols m = some nm ∧
      (a - m < tolerance →
        symbolicateOne symbols a = nm ++ "+" ++ hexStr (a - m)) ∧
      (tolerance ≤ a - m → symbolicateOne symbols a = unknownSym a)) ∨
    (rightmostLE (sortedSymbolAddrs symbols) a = none ∧
      (∀ k ∈ symbols.map Prod.fst, a < k) ∧
      symbolicateOne symbols a = unknownSym a) := by
  have hspec := rightmostLE_spec (sorted_sortedSymbolAddrs symbols) a
  cases hr : rightmostLE (sortedSymbolAddrs symbols) a with
  | some m =>
    left
    obtain ⟨hmem, hma, hmax⟩ := hspec.1 m hr
    have hmemf : m ∈ symbols.map Prod.fst := mem_sortedSymbolAddrs.mp hmem
    obtain ⟨nm, hnm⟩ := exists_lookupSym_of_mem_fst hmemf
    refine ⟨m, nm, rfl, hmemf, hma,
      fun k hk hka => hmax k (mem_sortedSymbolAddrs.mpr hk) hka, hnm,
      fun hlt => ?_, fun hge => ?_⟩
    · simp [symbolicateOne, hmiss, hr, hnm, hlt]
    · simp [symbolicateOne, hmiss, hr, hnm]
      omega
  | none =>
    right
    refine ⟨rfl, fun k hk => hspec.2 hr k (mem_sortedSymbolAddrs.mpr hk), ?_⟩
    simp [symbolicateOne, hmiss, hr]

theorem claim_c3_nearest_resolution_witness :
    lookupSym [((0 : Nat), "f")] 1 = none ∧
    ((∃ m nm, rightmostLE (sortedSymbolAddrs [((0 : Nat), "f")]) 1 = some m ∧
      m ∈ ([((0 : Nat), "f")] : SymbolMap).map Prod.fst ∧ m ≤ 1 ∧
      (∀ k ∈ ([((0 : Nat), "f")] : SymbolMap).map Prod.fst, k ≤ 1 → k ≤ m) ∧
      lookupSym [((0 : Nat), "f")] m = some nm ∧
      (1 - m < tolerance →
        symbolicateOne [((0 : Nat), "f")] 1 = nm ++ "+" ++ hexStr (1 - m)) ∧
      (tolerance ≤ 1 - m →
        symbolicateOne [((0 : Nat), "f")] 1 = unknownSym 1)) ∨
    (rightmostLE (sortedSymbolAddrs [((0 : Nat), "f")]) 1 = none ∧
      (∀ k ∈ ([((0 : Nat), "f")] : SymbolMap).map Prod.fst, 1 < k) ∧
      symbolicateOne [((0 : Nat), "f")] 1 = unknownSym 1)) :=
  ⟨by decide, claim_c3_nearest_resolution [((0 : Nat), "f")] 1 (by decide)⟩

/-! ## C4 — end-to-end resolution scenario -/

/-- C4 counterexample: the claim expects `resolve(0x1500) = Unknown` under
a tolerance of `0x100`, but the code's offset bound is the fixed constant
`0x10000`, so `0x1500` resolves to `foo+0x500`. -/
theorem claim_c4_counterexample :
    symbolicateOne [((0x1000 : Nat), "foo"), (0x2000, "bar")] 0x1500 ≠
      unknownSym 0x1500 ∧
    symbolicateOne [((0x1000 : Nat), "foo"), (0x2000, "bar")] 0x1500 =
      "foo+0x500" := by
  constructor
  · decide
  · rfl

/-- C4 (amended): with the code's fixed 64 KiB offset bound, on the table
`{0x1000: foo, 0x2000: bar}`: `0x1000` resolves exactly to `foo`
(offset 0, rendered without a suffix), `0x1050` to `foo+0x50`, `0x1500`
to `foo+0x500` (within the 64 KiB bound, not Unknown), and `0x2010` to
`bar+0x10`. -/
theorem claim_c4_end_to_end :
    symbolicateOne [((0x1000 : Nat), "foo"), (0x2000, "bar")] 0x1000 = "foo" ∧
    symbolicateOne [((0x1000 : Nat), "foo"), (0x2000, "bar")] 0x1050 = "foo+0x50" ∧
    symbolicateOne [((0x1000 : Nat), "foo"), (0x2000, "bar")] 0x1500 = "foo+0x500" ∧
    symbolicateOne [((0x1000 : Nat), "foo"), (0x2000, "bar")] 0x2010 = "bar+0x10" :=
  ⟨rfl, rfl, rfl, rfl⟩

/-! ## C8 — resolution is total and never throws -/

/-- C8: resolution produces a structured entry for every input address
over any table (including the empty one); each entry is either the
Unknown marker carrying the raw address, or a symbol (exact, or with an
in-tolerance offset suffix).  Exception-freedom is reflected by the
embedding being a total function whose fallback branch is `unknownSym`. -/
theorem claim_c8_total_resolution (addresses : List Nat) (symbols : SymbolMap) :
    ∀ a ∈ addresses,
      (hexStr a, symbolicateOne symbols a) ∈
        symbolicate_addresses addresses symbols ∧
      (symbolicateOne symbols a = unknownSym a ∨
        ∃ m nm, lookupSym symbols m = some nm ∧ m ≤ a ∧ a - m < tolerance ∧
          (symbolicateOne symbols a = nm ∨
           symbolicateOne symbols a = nm ++ "+" ++ hexStr (a - m))) := by
  intro a ha
  refine ⟨List.mem_map.mpr ⟨a, ha, rfl⟩, ?_⟩
  cases hx : lookupSym symbols a with
  | some nm =>
    right
    exact ⟨a, nm, hx, Nat.le_refl a, by simp [tolerance],
      Or.inl (by simp [symbolicateOne, hx])⟩
  | none =>
    cases hr : rightmostLE (sortedSymbolAddrs symbols) a with
    | none => exact Or.inl (by simp [symbolicateOne, hx, hr])
    | some m =>
      by_cases htol : a - m < tolerance
      · have hmemTW : m ∈ (sortedSymbolAddrs symbols).takeWhile
            (fun x => decide (x ≤ a)) := List.mem_of_getLast?_eq_some hr
        have hma : m ≤ a := by simpa using List.mem_takeWhile_imp hmemTW
        have hmemf : m ∈ symbols.map Prod.fst :=
          mem_sortedSymbolAddrs.mp ((List.takeWhile_sublist _).subset hmemTW)
        obtain ⟨nm, hnm⟩ := exists_lookupSym_of_mem_fst hmemf
        exact Or.inr ⟨m, nm, hnm, hma, htol,
          Or.inr (by simp [symbolicateOne, hx, hr, hnm, htol])⟩
      · exact Or.inl (by simp [symbolicateOne, hx, hr, htol])

theorem claim_c8_total_resolution_witness :
    (hexStr 1, symbolicateOne [((0 : Nat), "f")] 1) ∈
      symbolicate_addresses [1] [((0 : Nat), "f")] ∧
    (symbolicateOne [((0 : Nat), "f")] 1 = unknownSym 1 ∨
      ∃ m nm, lookupSym [((0 : Nat), "f")] m = some nm ∧ m ≤ 1 ∧
        1 - m < tolerance ∧
        (symbolicateOne [((0 : Nat), "f")] 1 = nm ∨
         symbolicateOne [((0 : Nat), "f")] 1 = nm ++ "+" ++ hexStr (1 - m))) :=
  claim_c8_total_resolution [1] [((0 : Nat), "f")] 1 (by decide)

/-! ## Helper lemmas: the eviction loop -/

/-- Every removed item was over-age or singly-accessed. -/
lemma evictLoop_removed_cond {cfg : CleanupConfig} {now required : Nat} :
    ∀ (l : List CacheItem) (freed : Nat) (x : CacheItem),
      x ∈ (evictLoop cfg now required freed l).2 →
      cfg.cleanupAfter < now - x.lastAccess ∨ x.accessCount = 1
  | [], _, x, hx => absurd hx (List.not_mem_nil _)
  | item :: rest, freed, x, hx => by
    unfold evictLoop at hx
    by_cases hbrk : 0 < required ∧ required ≤ freed
    · rw [if_pos hbrk] at hx
      exact absurd hx (List.not_mem_nil _)
    · rw [if_neg hbrk] at hx
      by_cases hcond : cfg.cleanupAfter < now - item.lastAccess ∨ item.accessCount = 1
      · rw [if_pos hcond] at hx
        rcases List.mem_cons.mp hx with rfl | hx'
        · exact hcond
        · exact evictLoop_removed_cond rest _ x hx'
      · rw [if_neg hcond] at hx
        exact evictLoop_removed_cond rest _ x hx

/-- The kept items all come from the input list. -/
lemma evictLoop_kept_subset {cfg : CleanupConfig} {now required : Nat} :
    ∀ (l : List CacheItem) (freed : Nat),
      (evictLoop cfg now required freed l).1 ⊆ l
  | [], _ => by unfold evictLoop; exact List.Subset.refl _
  | item :: rest, freed => by
    unfold evictLoop
    by_cases hbrk : 0 < required ∧ required ≤ freed
    · rw [if_pos hbrk]
      exact List.Subset.refl _
    · rw [if_neg hbrk]
      by_cases hcond : cfg.cleanupAfter < now - item.lastAccess ∨ item.accessCount = 1
      · rw [if_pos hcond]
        exact List.subset_cons_of_subset _ (evictLoop_kept_subset rest _)
      · rw [if_neg hcond]
        exact List.cons_subset_cons _ (evictLoop_kept_subset rest _)

/-- Priority of the sorted loop: once a multiply-accessed item is removed,
no singly-accessed item can have been kept. -/
lemma evictLoop_priority {cfg : CleanupConfig} {now required : Nat} :
    ∀ (l : List CacheItem) (freed : Nat), l.Pairwise itemOrder →
      ∀ x ∈ (evictLoop cfg now required freed l).2, 1 < x.accessCount →
        ∀ y ∈ (evictLoop cfg now required freed l).1, y.accessCount ≠ 1
  | [], _, _, x, hx, _, _, _ => absurd hx (List.not_mem_nil _)
  | item :: rest, freed, hp, x, hx, hxc, y, hy => by
    rw [List.pairwise_cons] at hp
    unfold evictLoop at hx hy
    by_cases hbrk : 0 < required ∧ required ≤ freed
    · rw [if_pos hbrk] at hx
      exact absurd hx (List.not_mem_nil _)
    · rw [if_neg hbrk] at hx hy
      by_cases hcond : cfg.cleanupAfter < now - item.lastAccess ∨ item.accessCount = 1
      · rw [if_pos hcond] at hx hy
        rcases List.mem_cons.mp hx with rfl | hx'
        · have hyrest : y ∈ rest := evictLoop_kept_subset rest _ hy
          have := hp.1 y hyrest
          unfold itemOrder at this
          omega
        · exact evictLoop_priority rest _ hp.2 x hx' hxc y hy
      · rw [if_neg hcond] at hx hy
        rcases List.mem_cons.mp hy with rfl | hy'
        · intro h1
          exact hcond (Or.inr h1)
        · exact evictLoop_priority rest _ hp.2 x hx hxc y hy'

/-! ## C2 — eviction pass invariant -/

/-- C2 counterexample: a pass of `has_enough_space`/`cleanup_cache`
triggered by projected over-budget usage (usage 20 + required 5 > budget
10) removes nothing when the only item is multiply-accessed and recent,
so total usage stays above the budget after the pass. -/
theorem claim_c2_counterexample :
    (⟨10, 86400⟩ : CleanupConfig).cacheSize <
      totalSize [⟨"k", 20, 0, 2⟩] + 5 ∧
    (hasEnoughSpace ⟨10, 86400⟩ 0 [⟨"k", 20, 0, 2⟩] 5).1 = false ∧
    (hasEnoughSpace ⟨10, 86400⟩ 0 [⟨"k", 20, 0, 2⟩] 5).2 =
      [⟨"k", 20, 0, 2⟩] ∧
    (⟨10, 86400⟩ : CleanupConfig).cacheSize <
      totalSize (hasEnoughSpace ⟨10, 86400⟩ 0 [⟨"k", 20, 0, 2⟩] 5).2 := by
  decide

/-- C2 (amended): an eviction pass only removes items that are over-age
or have `access_count = 1` (so total usage can stay above budget — see
the counterexample), and the priority half of the claim holds
unconditionally: no item with `access_count > 1` is removed while any
item with `access_count = 1` (of any age) remains among the kept
candidates. -/
theorem claim_c2_eviction_policy (cfg : CleanupConfig) (now : Nat)
    (items : List CacheItem) (required : Nat) :
    (∀ x ∈ (cleanupCache cfg now items required).2,
      cfg.cleanupAfter < now - x.lastAccess ∨ x.accessCount = 1) ∧
    (∀ x ∈ (cleanupCache cfg now items required).2, 1 < x.accessCount →
      ∀ y ∈ (cleanupCache cfg now items required).1, y.accessCount ≠ 1) := by
  constructor
  · exact fun x hx => evictLoop_removed_cond _ 0 x hx
  · exact fun x hx hxc y hy =>
      evictLoop_priority _ 0 (List.sorted_insertionSort itemOrder items)
        x hx hxc y hy

theorem claim_c2_eviction_policy_witness :
    ((⟨10, 86400⟩ : CleanupConfig).cleanupAfter <
      100000 - (⟨"a", 5, 0, 2⟩ : CacheItem).lastAccess ∨
      (⟨"a", 5, 0, 2⟩ : CacheItem).accessCount = 1) ∧
    (∀ y ∈ (cleanupCache ⟨10, 86400⟩ 100000 [⟨"a", 5, 0, 2⟩] 0).1,
      y.accessCount ≠ 1) :=
  ⟨(claim_c2_eviction_policy ⟨10, 86400⟩ 100000 [⟨"a", 5, 0, 2⟩] 0).1
      ⟨"a", 5, 0, 2⟩ (by decide),
   (claim_c2_eviction_policy ⟨10, 86400⟩ 100000 [⟨"a", 5, 0, 2⟩] 0).2
      ⟨"a", 5, 0, 2⟩ (by decide) (by decide)⟩

/-! ## Helper lemmas: the removal trace -/

lemma mem_meta_stateAfter :
    ∀ (evs : List RemovalEv) (s : DiskState) (k : String),
      k ∈ (stateAfter s evs).meta ↔
        k ∈ s.meta ∧ RemovalEv.delMeta k ∉ evs
  | [], s, k => by simp [stateAfter]
  | e :: t, s, k => by
    have hstep : stateAfter s (e :: t) = stateAfter (applyRemoval s e) t := rfl
    rw [hstep, mem_meta_stateAfter t (applyRemoval s e) k]
    cases e with
    | delArtifact k' => simp [applyRemoval]
    | delMeta k' =>
      simp only [applyRemoval, List.mem_filter, List.mem_cons, decide_eq_true_eq]
      constructor
      · rintro ⟨⟨hk, hne⟩, hnt⟩
        exact ⟨hk, by simp [hnt]; intro h; exact hne (by simpa using h)⟩
      · rintro ⟨hk, hn⟩
        simp only [not_or] at hn
        exact ⟨⟨hk, fun h => hn.1 (by simp [h])⟩, hn.2⟩

lemma mem_artifacts_stateAfter :
    ∀ (evs : List RemovalEv) (s : DiskState) (k : String),
      k ∈ (stateAfter s evs).artifacts ↔
        k ∈ s.artifacts ∧ RemovalEv.delArtifact k ∉ evs
  | [], s, k => by simp [stateAfter]
  | e :: t, s, k => by
    have hstep : stateAfter s (e :: t) = stateAfter (applyRemoval s e) t := rfl
    rw [hstep, mem_artifacts_stateAfter t (applyRemoval s e) k]
    cases e with
    | delMeta k' => simp [applyRemoval]
    | delArtifact k' =>
      simp only [applyRemoval, List.mem_filter, List.mem_cons, decide_eq_true_eq]
      constructor
      · rintro ⟨⟨hk, hne⟩, hnt⟩
        exact ⟨hk, by simp [hnt]; intro h; exact hne (by simpa using h)⟩
      · rintro ⟨hk, hn⟩
        simp only [not_or] at hn
        exact ⟨⟨hk, fun h => hn.1 (by simp [h])⟩, hn.2⟩

/-- Every event of a removal trace names the key of some removed item. -/
lemma mem_removalTrace {removed : List CacheItem} {e : RemovalEv}
    (he : e ∈ removalTrace removed) :
    ∃ i ∈ removed, e = RemovalEv.delArtifact i.key ∨ e = RemovalEv.delMeta i.key := by
  obtain ⟨i, hi, hei⟩ := List.mem_flatMap.mp he
  rcases List.mem_cons.mp hei with rfl | hei'
  · exact ⟨i, hi, Or.inl rfl⟩
  · rcases List.mem_cons.mp hei' with rfl | h
    · exact ⟨i, hi, Or.inr rfl⟩
    · exact absurd h (List.not_mem_nil _)

/-! ## C9 — artifact/metadata deletion order during eviction -/

/-- C9 counterexample: for a removed item the eviction loop's trace is
artifact-deletion first, metadata-deletion second; after the one-element
prefix of the trace the metadata entry is still present while the
artifact is already gone — the state the claim says no reader can ever
observe. -/
theorem claim_c9_counterexample :
    removalTrace [⟨"k", 20, 0, 1⟩] =
      [RemovalEv.delArtifact "k", RemovalEv.delMeta "k"] ∧
    (removalTrace [⟨"k", 20, 0, 1⟩]).take 1 = [RemovalEv.delArtifact "k"] ∧
    "k" ∈ (stateAfter ⟨["k"], ["k"]⟩ [RemovalEv.delArtifact "k"]).meta ∧
    "k" ∉ (stateAfter ⟨["k"], ["k"]⟩ [RemovalEv.delArtifact "k"]).artifacts := by
  refine ⟨rfl, rfl, by decide, by decide⟩

/-- C9 (amended): eviction deletes the on-disk artifact BEFORE its
metadata entry and holds no lock, so for every removed item there is a
prefix of the destructive-event trace after which the metadata entry is
still observable while the artifact is already deleted. -/
theorem claim_c9_removal_order (removed : List CacheItem) (init : DiskState)
    (i : CacheItem) (hmem : i ∈ removed)
    (hnd : (removed.map CacheItem.key).Nodup) (hmeta : i.key ∈ init.meta) :
    ∃ pre post, removalTrace removed = pre ++ post ∧
      i.key ∈ (stateAfter init pre).meta ∧
      i.key ∉ (stateAfter init pre).artifacts := by
  obtain ⟨l1, l2, rfl⟩ := List.append_of_mem hmem
  have hkey1 : i.key ∉ l1.map CacheItem.key := by
    rw [List.map_append, List.map_cons] at hnd
    intro hin
    exact (List.nodup_append.mp hnd).2.2 hin (List.mem_cons_self _ _)
  refine ⟨removalTrace l1 ++ [RemovalEv.delArtifact i.key],
    RemovalEv.delMeta i.key :: removalTrace l2, ?_, ?_, ?_⟩
  · unfold removalTrace
    rw [List.flatMap_append, List.flatMap_cons]
    simp [List.append_assoc]
  · rw [mem_meta_stateAfter]
    refine ⟨hmeta, fun hin => ?_⟩
    rcases List.mem_append.mp hin with hin1 | hin2
    · obtain ⟨j, hj, hej⟩ := mem_removalTrace hin1
      rcases hej with hej | hej
      · exact RemovalEv.noConfusion hej
      · injection hej with hk
        exact hkey1 (hk ▸ List.mem_map_of_mem CacheItem.key hj)
    · simp at hin2
  · intro hin
    have h := (mem_artifacts_stateAfter _ init i.key).mp hin
    exact h.2 (List.mem_append_right _ (by simp))

theorem claim_c9_removal_order_witness :
    ∃ pre post,
      removalTrace [⟨"k", 20, 0, 1⟩] = pre ++ post ∧
      "k" ∈ (stateAfter ⟨["k"], ["k"]⟩ pre).meta ∧
      "k" ∉ (stateAfter ⟨["k"], ["k"]⟩ pre).artifacts :=
  claim_c9_removal_order [⟨"k", 20, 0, 1⟩] ⟨["k"], ["k"]⟩ ⟨"k", 20, 0, 1⟩
    (by decide) (by decide) (by decide)

/-! ## Helper lemmas: the coalescing transition system -/

lemma countP_set (p : CallPhase → Bool) :
    ∀ (l : List CallPhase) (i : Nat) (a b : CallPhase), l[i]? = some a →
      (l.set i b).countP p + (if p a then 1 else 0) =
        l.countP p + (if p b then 1 else 0)
  | [], i, a, b, h => by simp at h
  | x :: t, 0, a, b, h => by
    simp only [List.getElem?_cons_zero, Option.some.injEq] at h
    subst h
    simp only [List.set_cons_zero, List.countP_cons]
    omega
  | x :: t, i + 1, a, b, h => by
    simp only [List.getElem?_cons_succ] at h
    have ih := countP_set p t i a b h
    simp only [List.set_cons_succ, List.countP_cons]
    omega

/-- One step never increases `runs + activeCount`. -/
lemma stepSys_measure (result : SymbolData) (s : CoalesceSt) (i : Nat) :
    (stepSys result s i).runs + activeCount (stepSys result s i) ≤
      s.runs + activeCount s := by
  unfold stepSys activeCount
  cases h : s.threads[i]? with
  | none => exact Nat.le_refl _
  | some ph =>
    cases ph with
    | ready =>
      by_cases hc : s.cache.isSome = true
      · rw [if_pos hc]
        have hcnt := countP_set isActivePhase s.threads i
          CallPhase.ready CallPhase.done h
        simp [isActivePhase] at hcnt
        show s.runs + (s.threads.set i CallPhase.done).countP isActivePhase ≤
          s.runs + s.threads.countP isActivePhase
        omega
      · rw [if_neg hc]
        have hcnt := countP_set isActivePhase s.threads i
          CallPhase.ready CallPhase.extracting h
        simp [isActivePhase] at hcnt
        show s.runs + (s.threads.set i CallPhase.extracting).countP isActivePhase ≤
          s.runs + s.threads.countP isActivePhase
        omega
    | extracting =>
      have hcnt := countP_set isActivePhase s.threads i
        CallPhase.extracting CallPhase.writing h
      simp [isActivePhase] at hcnt
      show s.runs + 1 + (s.threads.set i CallPhase.writing).countP isActivePhase ≤
        s.runs + s.threads.countP isActivePhase
      omega
    | writing =>
      have hcnt := countP_set isActivePhase s.threads i
        CallPhase.writing CallPhase.done h
      simp [isActivePhase] at hcnt
      show s.runs + (s.threads.set i CallPhase.done).countP isActivePhase ≤
        s.runs + s.threads.countP isActivePhase
      omega
    | done => exact Nat.le_refl _

lemma runSched_measure (result : SymbolData) :
    ∀ (sched : List Nat) (s : CoalesceSt),
      (runSched result s sched).runs + activeCount (runSched result s sched) ≤
        s.runs + activeCount s
  | [], _ => Nat.le_refl _
  | i :: t, s =>
    Nat.le_trans (runSched_measure result t (stepSys result s i))
      (stepSys_measure result s i)

/-- A step from a populated cache with only ready/done threads keeps the
cache populated, keeps all threads ready/done, and runs no pipeline. -/
lemma stepSys_hit (result : SymbolData) (s : CoalesceSt) (i : Nat)
    (hc : s.cache.isSome = true)
    (hph : ∀ p ∈ s.threads, p = CallPhase.ready ∨ p = CallPhase.done) :
    (stepSys result s i).runs = s.runs ∧
    (stepSys result s i).cache.isSome = true ∧
    ∀ p ∈ (stepSys result s i).threads,
      p = CallPhase.ready ∨ p = CallPhase.done := by
  unfold stepSys
  cases h : s.threads[i]? with
  | none => exact ⟨rfl, hc, hph⟩
  | some ph =>
    have hmem : ph ∈ s.threads := by
      have := List.getElem?_eq_some_iff.mp h
      obtain ⟨hlt, hget⟩ := this
      exact hget ▸ List.getElem_mem hlt
    rcases hph ph hmem with rfl | rfl
    · rw [if_pos hc]
      refine ⟨rfl, hc, fun p hp => ?_⟩
      rcases List.mem_or_eq_of_mem_set hp with hp' | rfl
      · exact hph p hp'
      · exact Or.inr rfl
    · exact ⟨rfl, hc, hph⟩

lemma runSched_no_extraction (result : SymbolData) :
    ∀ (sched : List Nat) (s : CoalesceSt), s.cache.isSome = true →
      (∀ p ∈ s.threads, p = CallPhase.ready ∨ p = CallPhase.done) →
      (runSched result s sched).runs = s.runs
  | [], _, _, _ => rfl
  | i :: t, s, hc, hph => by
    obtain ⟨hr, hc', hph'⟩ := stepSys_hit result s i hc hph
    have := runSched_no_extraction result t (stepSys result s i) hc' hph'
    rw [runSched, this, hr]

/-! ## C1 — extraction coalescing -/

/-- C1 counterexample: two concurrent calls that both miss the cache,
interleaved check-check-extract-extract, each run the pipeline: two
pipeline executions for one key, not exactly one — the code takes no
per-key lock and never re-checks the cache between miss and pipeline. -/
theorem claim_c1_counterexample :
    (runSched [("0x1", "f")]
      ⟨none, [CallPhase.ready, CallPhase.ready], 0⟩ [0, 1, 0, 1, 0, 1]).runs = 2 ∧
    (runSched [("0x1", "f")]
      ⟨none, [CallPhase.ready, CallPhase.ready], 0⟩ [0, 1, 0, 1, 0, 1]).runs ≠ 1 := by
  decide

/-- C1 (amended): coalescing is only sequential.  A call whose initial
cache check observes a populated record runs no pipeline (under any
schedule, when every thread is still ready or already done); in general
the number of pipeline executions is bounded by the number of calls that
can still reach the pipeline — it is NOT bounded by one, as the
counterexample's interleaving shows. -/
theorem claim_c1_coalescing (result : SymbolData) (s : CoalesceSt)
    (sched : List Nat) :
    (s.cache.isSome = true →
      (∀ p ∈ s.threads, p = CallPhase.ready ∨ p = CallPhase.done) →
      (runSched result s sched).runs = s.runs) ∧
    (runSched result s sched).runs ≤ s.runs + activeCount s := by
  refine ⟨fun hc hph => runSched_no_extraction result sched s hc hph, ?_⟩
  have := runSched_measure result sched s
  omega

theorem claim_c1_coalescing_witness :
    (runSched [("0x1", "f")]
      ⟨some [("0x1", "f")], [CallPhase.ready, CallPhase.ready], 0⟩ [0, 1]).runs = 0 ∧
    (runSched [("0x1", "f")]
      ⟨some [("0x1", "f")], [CallPhase.ready, CallPhase.ready], 0⟩ [0, 1]).runs ≤
      0 + activeCount ⟨some [("0x1", "f")], [CallPhase.ready, CallPhase.ready], 0⟩ :=
  ⟨(claim_c1_coalescing [("0x1", "f")]
      ⟨some [("0x1", "f")], [CallPhase.ready, CallPhase.ready], 0⟩ [0, 1]).1
      (by decide) (by decide),
   (claim_c1_coalescing [("0x1", "f")]
      ⟨some [("0x1", "f")], [CallPhase.ready, CallPhase.ready], 0⟩ [0, 1]).2⟩

/-! ## Helper lemmas: key strings -/

lemma isPrefixOf_append : ∀ (l t : List Char), List.isPrefixOf l (l ++ t) = true
  | [], _ => by simp [List.isPrefixOf]
  | c :: l, t => by
    show (c == c && List.isPrefixOf l (l ++ t)) = true
    simp [isPrefixOf_append l t]

lemma strStartsWith_append (p rest : String) :
    strStartsWith (p ++ rest) p = true := by
  unfold strStartsWith
  rw [String.data_append]
  exact isPrefixOf_append p.data rest.data

lemma append_build_ne (dm v b : String) : dm ++ "_" ++ v ++ "_" ++ b ≠ b := by
  intro h
  have hl := congrArg String.length h
  simp only [String.length_append] at hl
  have h1 : ("_" : String).length = 1 := rfl
  omega

lemma append_unknown_ne (dm b : String) : dm ++ "_" ++ b ++ "_unknown" ≠ b := by
  intro h
  have hl := congrArg String.length h
  simp only [String.length_append] at hl
  have h1 : ("_" : String).length = 1 := rfl
  have h2 : ("_unknown" : String).length = 8 := rfl
  omega

lemma patternKey_self (dm v b : String) :
    patternKey dm v (some b) b = dm ++ "_" ++ v ++ "_" ++ b := by
  simp only [patternKey]
  simp

lemma patternKey_triple (dm v b : String) :
    patternKey dm v (some b) (dm ++ "_" ++ v ++ "_" ++ b) =
      dm ++ "_" ++ v ++ "_" ++ b := by
  have hsw : strStartsWith (dm ++ "_" ++ v ++ "_" ++ b) dm = true := by
    have he : dm ++ "_" ++ v ++ "_" ++ b = dm ++ ("_" ++ (v ++ ("_" ++ b))) := by
      simp [String.append_assoc]
    rw [he]
    exact strStartsWith_append _ _
  simp only [patternKey]
  rw [if_neg (append_build_ne dm v b), if_pos hsw]

lemma patternKey_unknown (dm v b : String) :
    patternKey dm v (some b) (dm ++ "_" ++ b ++ "_unknown") =
      dm ++ "_" ++ b ++ "_unknown" := by
  have hsw : strStartsWith (dm ++ "_" ++ b ++ "_unknown") dm = true := by
    have he : dm ++ "_" ++ b ++ "_unknown" =
        dm ++ ("_" ++ (b ++ "_unknown")) := by
      simp [String.append_assoc]
    rw [he]
    exact strStartsWith_append _ _
  simp only [patternKey]
  rw [if_neg (append_unknown_ne dm b), if_pos hsw]

/-- The literal key order when a build number is supplied. -/
lemma triedCacheKeys_some (dm v b : String) :
    triedCacheKeys dm v (some b) =
      [dm ++ "_" ++ v, dm ++ "_" ++ v ++ "_" ++ b, dm ++ "_" ++ v ++ "_" ++ b,
        dm ++ "_" ++ b ++ "_unknown"] := by
  unfold triedCacheKeys buildPatterns
  rw [List.map_cons, List.map_cons, List.map_cons, List.map_nil]
  rw [patternKey_self, patternKey_triple, patternKey_unknown]

/-! ## C5 — cache-key lookup order -/

/-- C5 counterexample: with both the exact triple key `d_1_B` and the
`d_1` key live, the lookup returns the `d_1` record — the device|version
key is tried FIRST, before the exact triple, contradicting the claimed
order. -/
theorem claim_c5_counterexample :
    getCachedSymbols [("d_1_B", ⟨[("0x2", "exact")], 10⟩),
      ("d_1", ⟨[("0x1", "loose")], 10⟩)] "d_1_B" 0 = some [("0x2", "exact")] ∧
    getCachedSymbols [("d_1_B", ⟨[("0x2", "exact")], 10⟩),
      ("d_1", ⟨[("0x1", "loose")], 10⟩)] "d_1" 0 = some [("0x1", "loose")] ∧
    ([("0x1", "loose")] : SymbolData) ≠ [("0x2", "exact")] ∧
    cacheLookupPhase [("d_1_B", ⟨[("0x2", "exact")], 10⟩),
      ("d_1", ⟨[("0x1", "loose")], 10⟩)] 0 "d" "1" (some "B") =
      some ("d_1", [("0x1", "loose")]) := by
  decide

/-- C5 (amended): with a build number, the keys are tried in the order
`device_version`, then `device_version_build` (twice — the first two
patterns yield the same key), then `device_build_unknown`; the first live
key's record is returned, so a live `device_version` record shadows a
live exact-triple record; when no tried key is live the lookup misses. -/
theorem claim_c5_lookup_order (db : CacheDB) (now : Nat) (dm v b : String) :
    triedCacheKeys dm v (some b) =
      [dm ++ "_" ++ v, dm ++ "_" ++ v ++ "_" ++ b, dm ++ "_" ++ v ++ "_" ++ b,
        dm ++ "_" ++ b ++ "_unknown"] ∧
    (∀ T, getCachedSymbols db (dm ++ "_" ++ v) now = some T →
      cacheLookupPhase db now dm v (some b) = some (dm ++ "_" ++ v, T)) ∧
    (∀ T, getCachedSymbols db (dm ++ "_" ++ v) now = none →
      getCachedSymbols db (dm ++ "_" ++ v ++ "_" ++ b) now = some T →
      cacheLookupPhase db now dm v (some b) =
        some (dm ++ "_" ++ v ++ "_" ++ b, T)) ∧
    ((∀ k ∈ triedCacheKeys dm v (some b),
        getCachedSymbols db k now = none) →
      cacheLookupPhase db now dm v (some b) = none) := by
  refine ⟨triedCacheKeys_some dm v b, fun T hT => ?_, fun T h0 hT => ?_,
    fun hall => ?_⟩
  · unfold cacheLookupPhase
    rw [triedCacheKeys_some]
    simp [List.findSome?_cons, hT]
  · unfold cacheLookupPhase
    rw [triedCacheKeys_some]
    simp [List.findSome?_cons, h0, hT]
  · unfold cacheLookupPhase
    refine List.findSome?_eq_none_iff.mpr (fun k hk => ?_)
    rw [hall k hk]
    rfl

theorem claim_c5_lookup_order_witness :
    cacheLookupPhase [("d_1", ⟨[("0x1", "t")], 10⟩)] 0 "d" "1" (some "B") =
      some ("d_1", [("0x1", "t")]) ∧
    cacheLookupPhase [("d_1_B", ⟨[("0x2", "u")], 10⟩)] 0 "d" "1" (some "B") =
      some ("d_1_B", [("0x2", "u")]) ∧
    cacheLookupPhase [] 0 "d" "1" (some "B") = none :=
  ⟨(claim_c5_lookup_order [("d_1", ⟨[("0x1", "t")], 10⟩)] 0 "d" "1" "B").2.1
      [("0x1", "t")] (by decide),
   (claim_c5_lookup_order [("d_1_B", ⟨[("0x2", "u")], 10⟩)] 0 "d" "1" "B").2.2.1
      [("0x2", "u")] (by decide) (by decide),
   (claim_c5_lookup_order [] 0 "d" "1" "B").2.2.2 (by decide)⟩

/-! ## C6 — failed extraction leaves the cache untouched -/

/-- Either the call succeeds, or it returns `(False, …)` with the cache
exactly as it was: every failing branch of the source returns before any
`cache_symbols` write. -/
lemma autoEnsure_cases (env : ScanEnv) (db : CacheDB) (now : Nat)
    (dm v : String) (b? : Option String) :
    (autoEnsure env db now dm v b?).1 = true ∨
      autoEnsure env db now dm v b? = (false, db) := by
  unfold autoEnsure
  repeat' first
    | exact Or.inl rfl
    | exact Or.inr rfl
    | split

/-- C6: if an `auto_ensure_symbols_available` run fails at any stage, the
symbol cache afterwards is exactly the cache before, so any pre-existing
live record (for the same key or any other) is unchanged — no failing
path writes or evicts. -/
theorem claim_c6_failure_preserves_cache (env : ScanEnv) (db : CacheDB)
    (now : Nat) (dm v : String) (b? : Option String) (k : String) (t : Nat)
    (T : SymbolData) (hpre : getCachedSymbols db k t = some T)
    (hfail : (autoEnsure env db now dm v b?).1 = false) :
    (autoEnsure env db now dm v b?).2 = db ∧
    getCachedSymbols (autoEnsure env db now dm v b?).2 k t = some T := by
  rcases autoEnsure_cases env db now dm v b? with h | h
  · rw [hfail] at h
    exact absurd h (by simp)
  · have h2 : (autoEnsure env db now dm v b?).2 = db := by rw [h]
    exact ⟨h2, by rw [h2]; exact hpre⟩

theorem claim_c6_failure_preserves_cache_witness :
    (autoEnsure ⟨false, [], false, none, false, false, []⟩
      [("k", ⟨[("0x1", "f")], 10⟩)] 0 "d" "1" none).2 =
      [("k", ⟨[("0x1", "f")], 10⟩)] ∧
    getCachedSymbols (autoEnsure ⟨false, [], false, none, false, false, []⟩
      [("k", ⟨[("0x1", "f")], 10⟩)] 0 "d" "1" none).2 "k" 0 =
      some [("0x1", "f")] :=
  claim_c6_failure_preserves_cache ⟨false, [], false, none, false, false, []⟩
    [("k", ⟨[("0x1", "f")], 10⟩)] 0 "d" "1" none "k" 0 [("0x1", "f")]
    (by decide) (by decide)

/-! ## C10 — iPad device-matching heuristic -/

/-- C10 counterexample: the claim quantifies over ALL identifier pairs
whose normalised forms contain `ipad`, but a pair that also contains
`iphone` with differing digit runs hits the iPhone branch first and
returns `False`. -/
theorem claim_c10_counterexample :
    listContains (normDevice "iPhone iPad 1") ("ipad".data) = true ∧
    listContains (normDevice "iPhone iPad 2") ("ipad".data) = true ∧
    deviceMatches "iPhone iPad 1" "iPhone iPad 2" = false := by
  decide

/-- C10 (amended): `_device_matches` returns `True` for every pair whose
normalised (lowercased, separator-stripped) forms both contain `ipad` —
regardless of model numbers — EXCEPT when both also contain `iphone` and
both raw strings contain digit runs that differ (the iPhone branch runs
first).  Consequently `list_available_ipsw` with such an iPad filter
includes every such iPad artifact. -/
theorem claim_c10_ipad_matching (a b : String)
    (ha : listContains (normDevice a) ("ipad".data) = true)
    (hb : listContains (normDevice b) ("ipad".data) = true)
    (hno : ¬(listContains (normDevice a) ("iphone".data) = true ∧
      listContains (normDevice b) ("iphone".data) = true ∧
      (digitRuns a).isEmpty = false ∧ (digitRuns b).isEmpty = false ∧
      digitRuns a ≠ digitRuns b)) :
    deviceMatches a b = true ∧
    ∀ (bucket : List BucketFile) (f : BucketFile), f ∈ bucket →
      f.device = a → f ∈ listAvailableIpsw bucket (some b) := by
  have hmatch : deviceMatches a b = true := by
    unfold deviceMatches
    by_cases h1 : normDevice a = normDevice b
    · rw [if_pos h1]
    · rw [if_neg h1]
      by_cases hc : (listContains (normDevice a) ("iphone".data) &&
          listContains (normDevice b) ("iphone".data) &&
          !(digitRuns a).isEmpty && !(digitRuns b).isEmpty) = true
      · rw [if_pos hc]
        simp only [Bool.and_eq_true, Bool.not_eq_true'] at hc
        obtain ⟨⟨⟨hc1, hc2⟩, hc3⟩, hc4⟩ := hc
        have heq : digitRuns a = digitRuns b := by
          by_contra hne
          exact hno ⟨hc1, hc2, hc3, hc4, hne⟩
        simp [heq]
      · rw [if_neg hc, if_pos (by simp [ha, hb])]
  refine ⟨hmatch, fun bucket f hf hdev => ?_⟩
  unfold listAvailableIpsw
  rw [List.mem_insertionSort]
  exact List.mem_filter.mpr ⟨hf, by simp [hdev, hmatch]⟩

theorem claim_c10_ipad_matching_witness :
    deviceMatches "iPad8,1" "iPad13,4" = true ∧
    ∀ (bucket : List BucketFile) (f : BucketFile), f ∈ bucket →
      f.device = "iPad8,1" → f ∈ listAvailableIpsw bucket (some "iPad13,4") :=
  claim_c10_ipad_matching "iPad8,1" "iPad13,4" (by decide) (by decide)
    (by decide)

end IpswSym
